import Mathlib

/-!
Shallow embedding of the fluid-grep core (crates/core) in Lean 4, together
with theorems settling the frozen specification claims.

Modelling conventions:
* Rust `&str` / `String` text values are `List Char`; `str::len` and the
  claims' "length" are character counts (the ASCII fragment, where byte and
  character counts coincide).
* Rust `str::to_lowercase` / `char::eq_ignore_ascii_case` are modelled with
  `Char.toLower`, which lowercases exactly the ASCII letters.
* Byte buffers (`Vec<u8>`, `Arc<[u8]>`) are `List Nat`; `PathBuf` keys are
  modelled by an abstract key type `PathKey` (only equality of paths matters
  to the cache claims).
* `Instant` / `Duration` are `Nat` time-units; methods reading the clock take
  an explicit `now` argument and `elapsed = now - recorded_at`.
* Rust `f32` arithmetic in the relevance scorer is modelled by exact `ℚ`
  arithmetic, keeping the source's operation structure.
* `u32` arithmetic that can wrap (the incremental fuzzy bonus) is modelled
  with explicit `% 2 ^ 32`.
-/

/-- Model of `str::to_lowercase` on the ASCII fragment. -/
def toLowerList (s : List Char) : List Char := s.map Char.toLower

/-- Model of `str::find(needle)`: index of the first occurrence of `needle`
as a contiguous sublist, `none` when absent. -/
def firstOccIdx (needle : List Char) : List Char → Option Nat
  | [] => if needle.isPrefixOf [] then some 0 else none
  | c :: t =>
    if needle.isPrefixOf (c :: t) then some 0
    else (firstOccIdx needle t).map (· + 1)

/-- Model of `str::contains(needle)`: the needle occurs as a contiguous
sublist. -/
def containsSub (needle hay : List Char) : Bool := (firstOccIdx needle hay).isSome

/-- Abstract stand-in for `std::path::PathBuf` cache keys. -/
abbrev PathKey := Nat

/- ------------------------------------------------------------------ -/
/- crates/core/cache.rs                                               -/
/- ------------------------------------------------------------------ -/

/-- Embeds `CachedResult` (cache.rs). -/
structure CachedResult where
  score : Nat
  path : PathKey
  line : List Char
  line_number : Nat
deriving DecidableEq

/-- Embeds `SearchResultCache` (cache.rs); `cached_at` is the stored
monotonic timestamp, `ttl` the time-to-live in time-units. -/
structure SearchResultCache where
  last_pattern : List Char
  last_results : List CachedResult
  cached_at : Nat
  ttl : Nat
deriving DecidableEq

/-- Embeds `SearchResultCache::new` (constructed at time `now`,
`ttl = Duration::from_secs(10)`). -/
def SearchResultCache.new (now : Nat) : SearchResultCache :=
  { last_pattern := [], last_results := [], cached_at := now, ttl := 10 }

/-- Embeds `SearchResultCache::is_valid`; `now` is the current clock reading,
so `self.cached_at.elapsed()` is `now - cached_at`. -/
def SearchResultCache.is_valid (c : SearchResultCache) (now : Nat)
    (pattern : List Char) : Bool :=
  if c.ttl ≤ now - c.cached_at then false
  else c.last_pattern.isPrefixOf pattern || pattern.isPrefixOf c.last_pattern

/-- Embeds `SearchResultCache::get`. -/
def SearchResultCache.get (c : SearchResultCache) (now : Nat)
    (pattern : List Char) : Option (List CachedResult) :=
  if c.is_valid now pattern then some c.last_results else none

/-- Embeds `SearchResultCache::update` at time `now`. -/
def SearchResultCache.update (c : SearchResultCache) (now : Nat)
    (pattern : List Char) (results : List CachedResult) : SearchResultCache :=
  { c with last_pattern := pattern, last_results := results, cached_at := now }

/-- Embeds `SearchResultCache::clear` (note: `cached_at` is not touched). -/
def SearchResultCache.clear (c : SearchResultCache) : SearchResultCache :=
  { c with last_pattern := [], last_results := [] }

/- ------------------------------------------------------------------ -/
/- crates/core/optimizer.rs                                           -/
/- ------------------------------------------------------------------ -/

/-- Lookup in the association-list model of `HashMap<PathBuf, Arc<[u8]>>`. -/
def mapGet (m : List (PathKey × List Nat)) (k : PathKey) : Option (List Nat) :=
  (m.find? (fun kv => kv.1 == k)).map (fun kv => kv.2)

/-- Keyed insert in the association-list model of the hash map: replaces the
value when the key is present, appends otherwise. -/
def mapInsert (m : List (PathKey × List Nat)) (k : PathKey) (v : List Nat) :
    List (PathKey × List Nat) :=
  if m.any (fun kv => kv.1 == k) then
    m.map (fun kv => if kv.1 == k then (k, v) else kv)
  else m ++ [(k, v)]

/-- Keyed removal in the association-list model: the removed value (as
`HashMap::remove` returns it) and the remaining map. -/
def mapRemove (m : List (PathKey × List Nat)) (k : PathKey) :
    Option (List Nat) × List (PathKey × List Nat) :=
  match m.find? (fun kv => kv.1 == k) with
  | none => (none, m)
  | some kv => (some kv.2, m.filter (fun kv2 => !(kv2.1 == k)))

/-- Sum of the byte lengths of all values stored in the map model. -/
def cacheSizeSum (m : List (PathKey × List Nat)) : Nat :=
  (m.map (fun kv => kv.2.length)).sum

/-- Embeds `FileContentCache` (optimizer.rs). -/
structure FileContentCache where
  cache : List (PathKey × List Nat)
  access_order : List PathKey
  max_size_bytes : Nat
  current_size_bytes : Nat
deriving DecidableEq

/-- Embeds `FileContentCache::new`. -/
def FileContentCache.new (max_size_bytes : Nat) : FileContentCache :=
  { cache := [], access_order := [], max_size_bytes := max_size_bytes,
    current_size_bytes := 0 }

/-- Embeds `FileContentCache::get`. -/
def FileContentCache.get (c : FileContentCache) (path : PathKey) :
    Option (List Nat) :=
  mapGet c.cache path

/-- Embeds the FIFO eviction `while` loop of `FileContentCache::insert`:
while `current_size_bytes + size > max_size_bytes` and the order list is
nonempty, remove the oldest entry (`saturating_sub` on the counter).
Returns the surviving `(access_order, cache, current_size_bytes)`. -/
def evictAux (maxBytes size : Nat) :
    List PathKey → List (PathKey × List Nat) → Nat →
    List PathKey × List (PathKey × List Nat) × Nat
  | [], m, cur => ([], m, cur)
  | oldest :: rest, m, cur =>
    if maxBytes < cur + size then
      let r := mapRemove m oldest
      evictAux maxBytes size rest r.2
        (match r.1 with
         | some removed => cur - removed.length
         | none => cur)
    else (oldest :: rest, m, cur)

/-- Embeds `FileContentCache::insert`. -/
def FileContentCache.insert (c : FileContentCache) (path : PathKey)
    (content : List Nat) : FileContentCache :=
  let size := content.length
  if c.max_size_bytes < size then c
  else
    let ev := evictAux c.max_size_bytes size c.access_order c.cache
      c.current_size_bytes
    { cache := mapInsert ev.2.1 path content
      access_order := ev.1 ++ [path]
      max_size_bytes := c.max_size_bytes
      current_size_bytes := ev.2.2 + size }

/-- Embeds `FileContentCache::clear`. -/
def FileContentCache.clear (c : FileContentCache) : FileContentCache :=
  { c with cache := [], access_order := [], current_size_bytes := 0 }

/-- Embeds `FileContentCache::stats`. -/
def FileContentCache.stats (c : FileContentCache) : Nat × Nat :=
  (c.cache.length, c.current_size_bytes)

/- ------------------------------------------------------------------ -/
/- crates/core/incremental.rs                                         -/
/- ------------------------------------------------------------------ -/

/-- Embeds `IncrementalResult` (incremental.rs). -/
structure IncrementalResult where
  text : List Char
  text_lower : List Char
  text_chars : List Char
  path : PathKey
  score : Nat
deriving DecidableEq

/-- Embeds `IncrementalSearch` (incremental.rs). -/
structure IncrementalSearch where
  last_pattern : List Char
  cached_results : List IncrementalResult
  pattern_history : List (List Char)
  max_results : Nat
deriving DecidableEq

/-- Embeds `IncrementalSearch::new`. -/
def IncrementalSearch.new (max_results : Nat) : IncrementalSearch :=
  { last_pattern := [], cached_results := [], pattern_history := [],
    max_results := max_results }

/-- Embeds `IncrementalSearch::can_reuse` (Policy B). -/
def IncrementalSearch.can_reuse (s : IncrementalSearch)
    (new_pattern : List Char) : Bool :=
  if new_pattern.isEmpty || s.last_pattern.isEmpty then false
  else if s.cached_results.isEmpty then false
  else if new_pattern.length == s.last_pattern.length + 1
      && s.last_pattern.isPrefixOf new_pattern then true
  else if s.last_pattern.length == new_pattern.length + 1
      && new_pattern.isPrefixOf s.last_pattern then true
  else false

/-- Modulus of `u32` arithmetic. -/
def M32 : Nat := 2 ^ 32

/-- Embeds the per-character bonus `(100 - i as u32).max(1)` of
`incremental_score`: the subtraction wraps in `u32` (the `usize` index is
first truncated to `u32`), then `max 1` is applied. -/
def bonusAt (i : Nat) : Nat :=
  max ((((100 : Int) - ((i % M32 : Nat) : Int)) % ((2 : Int) ^ 32)).toNat) 1

/-- Embeds the fuzzy-scan `for` loop of `incremental_score` over the
lowercased character arrays: first argument is the remaining pattern
characters, second the remaining text characters, `i` the enumeration index,
`score` the wrapping `u32` accumulator. When the pattern runs out the loop
breaks and the post-loop `score.max(100)` executes; when the last pattern
character matches, the loop returns the raw score immediately. -/
def fuzzyLoop : List Char → List Char → Nat → Nat → Nat
  | [], _, _, score => max score 100
  | _ :: _, [], _, _ => 0
  | p :: ps, c :: ts, i, score =>
    if c = p then
      let score2 := (score + bonusAt i) % M32
      match ps with
      | [] => score2
      | _ :: _ => fuzzyLoop ps ts (i + 1) score2
    else fuzzyLoop (p :: ps) ts (i + 1) score

/-- Embeds `incremental_score` (incremental.rs). -/
def incremental_score (pattern text : List Char) : Nat :=
  if pattern = [] then 1000
  else
    let pattern_lower := toLowerList pattern
    let text_lower := toLowerList text
    if text_lower = pattern_lower then 1000
    else if pattern_lower.isPrefixOf text_lower then 900
    else if containsSub pattern_lower text_lower then 700
    else
      match pattern_lower with
      | [] => 0
      | p0 :: _ =>
        if text_lower.contains p0 then fuzzyLoop pattern_lower text_lower 0 0
        else 0

/-- Specification-side description of the fuzzy scan: the list of text
indices at which the pattern characters match, scanning greedily left to
right; `none` when not every pattern character is found in order. -/
def greedyPositions : List Char → List Char → Nat → Option (List Nat)
  | [], _, _ => some []
  | _ :: _, [], _ => none
  | p :: ps, c :: ts, i =>
    if c = p then (greedyPositions ps ts (i + 1)).map (fun is => i :: is)
    else greedyPositions (p :: ps) ts (i + 1)

/-- Specification-side accumulated fuzzy score: the wrapping `u32` sum of the
per-position bonuses. -/
def bonusSum (is : List Nat) : Nat :=
  is.foldl (fun s i => (s + bonusAt i) % M32) 0

/- ------------------------------------------------------------------ -/
/- crates/core/heuristic.rs                                           -/
/- ------------------------------------------------------------------ -/

/-- Embeds `ScoringWeights` (heuristic.rs); `f32` weights become `ℚ`. -/
structure ScoringWeights where
  exact_match : ℚ
  case_sensitive : ℚ
  word_boundary : ℚ
  fuzzy_match : ℚ
  substring_match : ℚ
  length_similarity : ℚ

/-- Embeds `ScoringWeights::default`. -/
def ScoringWeights.defaults : ScoringWeights :=
  { exact_match := 1, case_sensitive := 1/2, word_boundary := 3/10,
    fuzzy_match := 1/5, substring_match := 3/20, length_similarity := 1/10 }

/-- Embeds `HeuristicConfig` (heuristic.rs). -/
structure HeuristicConfig where
  fuzzy_threshold : ℚ
  max_edit_distance : Option Nat
  unicode_aware : Bool
  case_sensitive_substring : Bool
  consecutive_match_bonus : ℚ
  weights : ScoringWeights

/-- Embeds `HeuristicConfig::default`. -/
def HeuristicConfig.defaults : HeuristicConfig :=
  { fuzzy_threshold := 3/5, max_edit_distance := none, unicode_aware := true,
    case_sensitive_substring := false, consecutive_match_bonus := 1,
    weights := ScoringWeights.defaults }

/-- Model of `char::is_alphanumeric` and `u8::is_ascii_alphanumeric` on the
ASCII fragment, where the two Rust tests coincide. -/
def isAlnumChar (c : Char) : Bool := c.isAlphanum

/-- Embeds `is_word_boundary_match` (heuristic.rs): `text.find(pattern)`
followed by the before/after alphanumeric checks (the `unicode_aware`
branches collapse in the ASCII model). -/
def is_word_boundary_match (pattern text : List Char) (_ua : Bool) : Bool :=
  match firstOccIdx pattern text with
  | none => false
  | some pos =>
    let before_ok :=
      if pos = 0 then true else !(isAlnumChar (text.getD (pos - 1) ' '))
    let after_pos := pos + pattern.length
    let after_ok :=
      if text.length ≤ after_pos then true
      else !(isAlnumChar (text.getD after_pos ' '))
    before_ok && after_ok

/-- Embeds `is_substring_match` (heuristic.rs). -/
def is_substring_match (pattern text : List Char) (case_sensitive : Bool) :
    Bool :=
  if case_sensitive then containsSub pattern text
  else containsSub (toLowerList pattern) (toLowerList text)

/-- Embeds the matched-character count of `fuzzy_match_with_threshold`: walk
the text once, advancing in the pattern on an ASCII-case-insensitive hit. -/
def countInOrder : List Char → List Char → Nat
  | [], _ => 0
  | _ :: _, [] => 0
  | p :: ps, c :: ts =>
    if c.toLower = p.toLower then countInOrder ps ts + 1
    else countInOrder (p :: ps) ts

/-- Embeds `fuzzy_match_with_threshold` (heuristic.rs). -/
def fuzzy_match_with_threshold (pattern text : List Char) (threshold : ℚ) :
    Bool :=
  if pattern = [] then true
  else
    decide (threshold ≤
      ((countInOrder pattern text : ℚ) / (pattern.length : ℚ)))

/-- Embeds `calculate_length_similarity` (heuristic.rs). -/
def calculate_length_similarity (pattern text : List Char) : ℚ :=
  let pl : ℚ := pattern.length
  let tl : ℚ := text.length
  let len_diff := |pl - tl|
  if len_diff = 0 then 1 else max (1 - len_diff / max pl tl) 0

/-- Embeds the position-aligned identical-character count of the
case-sensitive partial credit (`pattern.chars().zip(text.chars())`). -/
def countAligned (pattern text : List Char) : Nat :=
  ((pattern.zip text).filter (fun pr => pr.1 == pr.2)).length

/-- Embeds the final scaling `(score * 1000.0).min(1000.0) as u32`: the `as`
cast truncates toward zero (and saturates below at 0). -/
def scaleTo1000 (score : ℚ) : Nat := (Int.floor (min (score * 1000) 1000)).toNat

/-- Embeds `calculate_relevance_score_with_config` (heuristic.rs), keeping
the source's accumulation order of the six signals. -/
def calculate_relevance_score_with_config (pattern text : List Char)
    (is_exact is_case_sensitive : Bool) (config : HeuristicConfig) : Nat :=
  let score0 : ℚ := 0
  let score1 := if is_exact then score0 + 1 else score0
  let score2 :=
    if is_case_sensitive then
      if pattern = text then score1 + 1/2
      else
        let case_ratio : ℚ :=
          (countAligned pattern text : ℚ) / ((max pattern.length 1 : Nat) : ℚ)
        score1 + case_ratio * (1/4)
    else score1
  let score3 :=
    if is_word_boundary_match pattern text config.unicode_aware
    then score2 + 3/10 else score2
  let score4 :=
    if fuzzy_match_with_threshold pattern text config.fuzzy_threshold
    then score3 + 1/5 else score3
  let score5 :=
    if is_substring_match pattern text config.case_sensitive_substring
    then score4 + 3/20 else score4
  let score6 := score5 + calculate_length_similarity pattern text * (1/10)
  scaleTo1000 score6

/-- Embeds `calculate_relevance_score` (heuristic.rs). -/
def calculate_relevance_score (pattern text : List Char)
    (is_exact is_case_sensitive : Bool) : Nat :=
  calculate_relevance_score_with_config pattern text is_exact
    is_case_sensitive HeuristicConfig.defaults

/-- Embeds `ScoreBreakdown` (heuristic.rs). -/
structure ScoreBreakdown where
  exact_match : ℚ
  case_sensitive : ℚ
  word_boundary : ℚ
  fuzzy_match : ℚ
  substring_match : ℚ
  length_similarity : ℚ
  total : Nat

/-- Embeds `calculate_relevance_score_breakdown` (heuristic.rs). -/
def calculate_relevance_score_breakdown (pattern text : List Char)
    (is_exact is_case_sensitive : Bool) (config : HeuristicConfig) :
    ScoreBreakdown :=
  let e : ℚ := if is_exact then 1 else 0
  let cs : ℚ :=
    if is_case_sensitive then
      if pattern = text then 1/2
      else
        ((countAligned pattern text : ℚ) /
          ((max pattern.length 1 : Nat) : ℚ)) * (1/4)
    else 0
  let wb : ℚ :=
    if is_word_boundary_match pattern text config.unicode_aware
    then 3/10 else 0
  let fz : ℚ :=
    if fuzzy_match_with_threshold pattern text config.fuzzy_threshold
    then 1/5 else 0
  let ss : ℚ :=
    if is_substring_match pattern text config.case_sensitive_substring
    then 3/20 else 0
  let ls : ℚ := calculate_length_similarity pattern text * (1/10)
  let total := e + cs + wb + fz + ss + ls
  { exact_match := e, case_sensitive := cs, word_boundary := wb,
    fuzzy_match := fz, substring_match := ss, length_similarity := ls,
    total := scaleTo1000 total }

/-- Cost of one substitution in the byte-level edit distance. -/
def levCost (x y : Nat) : Nat := if x = y then 0 else 1

/-- Specification-side Levenshtein distance over byte lists, by the
standard recursion. -/
def lev : List Nat → List Nat → Nat
  | [], ys => ys.length
  | _ :: xs, [] => xs.length + 1
  | x :: xs, y :: ys =>
    min (min (lev xs (y :: ys) + 1) (lev (x :: xs) ys + 1))
      (lev xs ys + levCost x y)
termination_by xs ys => xs.length + ys.length

/-- Embeds the inner `for i in 1..=len1` loop of `levenshtein_distance`:
walks the remaining `s1` bytes with the matching tail of the previous row,
carrying the diagonal entry `d` and the entry `c` just written. -/
def nextRowAux (y : Nat) : List Nat → Nat → List Nat → Nat → List Nat
  | [], _, _, _ => []
  | _ :: _, _, [], _ => []
  | x :: xs, d, p :: ps, c =>
    let v := min (min (p + 1) (c + 1)) (d + levCost x y)
    v :: nextRowAux y xs p ps v

/-- Embeds one outer iteration of `levenshtein_distance`: builds the row for
one more byte `y` of `s2` from the previous row, with `curr_row[0] = j`. -/
def nextRow (y : Nat) (s1 : List Nat) (j : Nat) : List Nat → List Nat
  | [] => [j]
  | d :: ps => j :: nextRowAux y s1 d ps j

/-- Embeds the outer `for j in 1..=len2` loop of `levenshtein_distance`. -/
def dpLoop (s1 : List Nat) : List Nat → Nat → List Nat → List Nat
  | [], _, prev => prev
  | y :: ys, j, prev => dpLoop s1 ys (j + 1) (nextRow y s1 j prev)

/-- Embeds `levenshtein_distance` (heuristic.rs): empty-string guards, swap
so the shorter string indexes the rows, two-row DP, answer at `prev_row[len1]`. -/
def levenshtein_distance (s1 s2 : List Nat) : Nat :=
  if s1.length = 0 then s2.length
  else if s2.length = 0 then s1.length
  else
    let a := if s2.length < s1.length then s2 else s1
    let b := if s2.length < s1.length then s1 else s2
    (dpLoop a b 1 (List.range (a.length + 1))).getD a.length 0

/-- Specification-side DP row tail: entries of the current row beyond index
0, for the pattern bytes `xs` still to process, where `racc` is the reversed
list of bytes already processed and `rt` the reversed processed text. -/
def rowFor (rt : List Nat) : List Nat → List Nat → List Nat
  | [], _ => []
  | x :: xs, racc => lev (x :: racc) rt :: rowFor rt xs (x :: racc)

/-- Specification-side full DP row for reversed processed text `rt`. -/
def fullRow (rt s1 : List Nat) : List Nat := lev [] rt :: rowFor rt s1 []

/-- Embeds the scan loop of `find_match_positions` (heuristic.rs): find the
next occurrence of the lowered pattern at or after `start`, record its span,
and resume one position past the match start. The result is `none` when the
loop panics: the slice `text_lower[start..]` panics as soon as `start`
exceeds the length, which happens exactly for the empty pattern (it matches
at the final position and the scan then advances past the end); for a
nonempty pattern the scan always stays in bounds. -/
def findFrom (pl tl : List Char) (start : Nat) : Option (List (Nat × Nat)) :=
  if _h : start ≤ tl.length then
    match firstOccIdx pl (tl.drop start) with
    | none => some []
    | some pos =>
      (findFrom pl tl (start + pos + 1)).map
        (fun rest => (start + pos, start + pos + pl.length) :: rest)
  else none
termination_by tl.length + 1 - start
decreasing_by simp_wf; omega

/-- Embeds `find_match_positions` (heuristic.rs); `none` models a panic of
the scan loop. -/
def find_match_positions (pattern text : List Char) : Option (List (Nat × Nat)) :=
  findFrom (toLowerList pattern) (toLowerList text) 0

/-- Embeds the output-building `for` loop of `highlight_matches`: `acc` is
the `result` string and `last_end` the cursor. One iteration slices
`text[last_end..start]`, `prefix`, `text[start..end]`, `suffix`; the guard
is exactly the condition under which neither slice panics in Rust
(`last_end ≤ start ≤ len` and `start ≤ end ≤ len`), and `none` models the
panic — in particular `start < last_end` from overlapping spans panics. -/
def highlightLoop (text pre suf : List Char) :
    List (Nat × Nat) → List Char → Nat → Option (List Char × Nat)
  | [], acc, last_end => some (acc, last_end)
  | (s, e) :: rest, acc, last_end =>
    if last_end ≤ s ∧ s ≤ text.length ∧ s ≤ e ∧ e ≤ text.length then
      highlightLoop text pre suf rest
        (acc ++ (text.drop last_end).take (s - last_end) ++ pre ++
          (text.drop s).take (e - s) ++ suf) e
    else none

/-- Embeds `highlight_matches` (heuristic.rs); `pre`/`suf` are the caller's
prefix and suffix markers, `text[a..b]` is `(text.drop a).take (b - a)`, and
`none` models a panic (of the position scan or of a slice in the loop or in
the final `text[last_end..]`). -/
def highlight_matches (pattern text pre suf : List Char) : Option (List Char) :=
  match find_match_positions pattern text with
  | none => none
  | some positions =>
    if positions = [] then some text
    else
      match highlightLoop text pre suf positions [] 0 with
      | none => none
      | some (result, last_end) =>
        if last_end ≤ text.length then some (result ++ text.drop last_end)
        else none

/-- Specification-side shape of the highlighted output: for each span in
order, the unmatched text between the cursor and the span start, then the
prefix marker, the matched span, the suffix marker; after the last span,
the remaining text. -/
def interleave (text pre suf : List Char) : List (Nat × Nat) → Nat → List Char
  | [], last_end => text.drop last_end
  | (s, e) :: rest, last_end =>
    (text.drop last_end).take (s - last_end) ++ pre ++
      (text.drop s).take (e - s) ++ suf ++ interleave text pre suf rest e

/- ------------------------------------------------------------------ -/
/- Theorems settling the claims                                        -/
/- ------------------------------------------------------------------ -/

/-- Bridges the executable `List.isPrefixOf` used by the embeddings to the
propositional prefix relation. -/
theorem prefixOf_iff (a b : List Char) : a.isPrefixOf b = true ↔ a <+: b :=
  List.isPrefixOf_iff_prefix

/-- C5: for every `SearchResultCache` state (Policy A) with the 10-unit TTL
and every new pattern, `is_valid` returns true exactly when less than the
TTL has elapsed since the last update and either the new pattern starts
with the cached pattern or the cached pattern starts with the new pattern,
with any length difference; `get` returns the cached result set exactly
under the same condition and `none` otherwise. -/
theorem c5_policyA_validity (lp : List Char) (rs : List CachedResult)
    (at0 now : Nat) (p : List Char) :
    (SearchResultCache.is_valid ⟨lp, rs, at0, 10⟩ now p = true ↔
      (now - at0 < 10 ∧ (lp <+: p ∨ p <+: lp)))
    ∧ SearchResultCache.get ⟨lp, rs, at0, 10⟩ now p =
        (if now - at0 < 10 ∧ (lp <+: p ∨ p <+: lp) then some rs else none) := by
  have hv : SearchResultCache.is_valid ⟨lp, rs, at0, 10⟩ now p = true ↔
      (now - at0 < 10 ∧ (lp <+: p ∨ p <+: lp)) := by
    simp only [SearchResultCache.is_valid]
    split
    · next h => simp; omega
    · next h =>
      simp [Bool.or_eq_true, prefixOf_iff]
      intro
      omega
  refine ⟨hv, ?_⟩
  simp only [SearchResultCache.get]
  split
  · next h => rw [if_pos (hv.mp h)]
  · next h =>
    rw [if_neg]
    intro hc
    exact h (hv.mpr hc)

/-- C10: whenever the stored pattern is empty — as at construction and
after every `clear()` — `is_valid` accepts every pattern exactly while less
than the TTL has elapsed since the stored timestamp, and `get` then returns
the stored (possibly empty) result list; `clear` empties the pattern and
results but leaves the recency timestamp unchanged, and `new` starts with
the empty pattern. -/
theorem c10_empty_pattern (rs : List CachedResult) (at0 ttl0 now : Nat)
    (p : List Char) (c : SearchResultCache) :
    SearchResultCache.is_valid ⟨[], rs, at0, ttl0⟩ now p =
        decide (now - at0 < ttl0)
    ∧ SearchResultCache.get ⟨[], rs, at0, ttl0⟩ now p =
        (if now - at0 < ttl0 then some rs else none)
    ∧ (SearchResultCache.clear c).last_pattern = []
    ∧ (SearchResultCache.clear c).last_results = []
    ∧ (SearchResultCache.clear c).cached_at = c.cached_at
    ∧ (SearchResultCache.new at0).last_pattern = [] := by
  have hv : SearchResultCache.is_valid ⟨[], rs, at0, ttl0⟩ now p =
      decide (now - at0 < ttl0) := by
    simp only [SearchResultCache.is_valid]
    split
    · next h => simp; omega
    · next h => simp [List.nil_prefix]; omega
  refine ⟨hv, ?_, rfl, rfl, rfl, rfl⟩
  simp only [SearchResultCache.get, hv]
  split
  · next h => rw [if_pos]; simpa using h
  · next h => rw [if_neg]; simpa using h

/-- C6: a call to `insert` with a value whose byte length strictly exceeds
the byte budget is a silent no-op: the entire cache state (stored entries,
eviction order and byte counter, hence everything `get` and `stats`
observe) is exactly as before the call, and the value never appears. -/
theorem c6_oversized_insert_noop (c : FileContentCache) (p : PathKey)
    (v : List Nat) (h : c.max_size_bytes < v.length) :
    FileContentCache.insert c p v = c := by
  simp only [FileContentCache.insert]
  rw [if_pos h]

/-- Witness for C6: a concrete oversized insert into a fresh cache with a
5-byte budget leaves the cache unchanged. -/
theorem c6_oversized_insert_noop_witness :
    (FileContentCache.new 5).max_size_bytes < (List.replicate 6 0).length
    ∧ FileContentCache.insert (FileContentCache.new 5) 0 (List.replicate 6 0) =
        FileContentCache.new 5 :=
  ⟨by decide,
    c6_oversized_insert_noop (FileContentCache.new 5) 0 (List.replicate 6 0)
      (by decide)⟩

/-- C2 (evaluation at the failing input): after inserting the same key
twice with 10-byte values under a 100-byte budget, the values stored in the
cache sum to 10 bytes while `current_size_bytes` is 20, so the claimed
invariant `sum of stored value lengths = current_size_bytes` fails when
`insert` is called with a key already present. -/
theorem c2_duplicate_key_breaks_size_invariant :
    (FileContentCache.insert
        (FileContentCache.insert (FileContentCache.new 100) 7
          (List.replicate 10 0)) 7 (List.replicate 10 0)).current_size_bytes = 20
    ∧ cacheSizeSum (FileContentCache.insert
        (FileContentCache.insert (FileContentCache.new 100) 7
          (List.replicate 10 0)) 7 (List.replicate 10 0)).cache = 10 := by
  constructor <;> rfl

/-- C4: `can_reuse` (Policy B) returns true only when the new pattern is
exactly one character longer than the cached pattern and starts with it, or
exactly one character shorter and a prefix of it; every other edit is
refused, and an empty new pattern or an empty cached pattern never
reuses. -/
theorem c4_can_reuse_policyB (s : IncrementalSearch) (p : List Char) :
    (s.can_reuse p = true →
      (p.length = s.last_pattern.length + 1 ∧ s.last_pattern <+: p) ∨
      (s.last_pattern.length = p.length + 1 ∧ p <+: s.last_pattern))
    ∧ (p = [] → s.can_reuse p = false)
    ∧ (s.last_pattern = [] → s.can_reuse p = false) := by
  refine ⟨?_, ?_, ?_⟩
  · intro h
    unfold IncrementalSearch.can_reuse at h
    split at h
    · simp at h
    split at h
    · simp at h
    split at h
    · next hc =>
      rw [Bool.and_eq_true, beq_iff_eq, prefixOf_iff] at hc
      exact Or.inl ⟨hc.1, hc.2⟩
    split at h
    · next hc =>
      rw [Bool.and_eq_true, beq_iff_eq, prefixOf_iff] at hc
      exact Or.inr ⟨hc.1, hc.2⟩
    · simp at h
  · intro hp
    subst hp
    simp [IncrementalSearch.can_reuse]
  · intro hp
    simp [IncrementalSearch.can_reuse, hp]

/-- When the embedded `str::find` returns an index, the needle occurs there
and the occurrence is in bounds. -/
theorem firstOccIdx_some_spec (needle : List Char) :
    ∀ hay pos, firstOccIdx needle hay = some pos →
      needle <+: hay.drop pos ∧ pos + needle.length ≤ hay.length := by
  intro hay
  induction hay with
  | nil =>
    intro pos h
    simp only [firstOccIdx] at h
    split at h
    · next hp =>
      cases h
      rw [prefixOf_iff] at hp
      exact ⟨hp, by simpa using hp.length_le⟩
    · cases h
  | cons c t ih =>
    intro pos h
    simp only [firstOccIdx] at h
    split at h
    · next hp =>
      cases h
      rw [prefixOf_iff] at hp
      exact ⟨hp, by simpa using hp.length_le⟩
    · next hp =>
      rcases Option.map_eq_some'.mp h with ⟨q, hq, rfl⟩
      rcases ih q hq with ⟨h1, h2⟩
      refine ⟨by simpa using h1, by simp; omega⟩

/-- The embedded `str::find` succeeds exactly when the needle is a
contiguous sublist of the haystack. -/
theorem firstOccIdx_isSome_iff (needle : List Char) :
    ∀ hay, (firstOccIdx needle hay).isSome = true ↔ needle <:+: hay := by
  intro hay
  induction hay with
  | nil =>
    simp only [firstOccIdx]
    split
    · next hp =>
      rw [prefixOf_iff] at hp
      simp [hp.isInfix]
    · next hp =>
      rw [prefixOf_iff] at hp
      refine ⟨fun hc => absurd hc (by simp), fun hc => absurd ?_ hp⟩
      simp [List.eq_nil_of_infix_nil hc]
  | cons c t ih =>
    simp only [firstOccIdx]
    split
    · next hp =>
      rw [prefixOf_iff] at hp
      simp [hp.isInfix]
    · next hp =>
      rw [prefixOf_iff] at hp
      rw [Option.isSome_map']
      rw [ih, List.infix_cons_iff]
      tauto

/-- A nonempty pattern occurring at position `i` fits inside the text. -/
theorem prefix_drop_bounds (pl tl : List Char) (i : Nat) (hpl : pl ≠ [])
    (h : pl <+: tl.drop i) : i ≤ tl.length ∧ i + pl.length ≤ tl.length := by
  by_cases hi : i ≤ tl.length
  · have hlen := h.length_le
    rw [List.length_drop] at hlen
    exact ⟨hi, by omega⟩
  · exfalso
    have hnil : tl.drop i = [] := List.drop_eq_nil_of_le (by omega)
    rw [hnil] at h
    exact hpl (List.prefix_nil.mp h)

/-- The embedded `str::find` succeeds at or before any given occurrence:
it returns the first occurrence. -/
theorem firstOccIdx_le (needle : List Char) :
    ∀ (hay : List Char) (j : Nat), needle <+: hay.drop j →
      ∃ pos, firstOccIdx needle hay = some pos ∧ pos ≤ j := by
  intro hay
  induction hay with
  | nil =>
    intro j hj
    rw [List.drop_nil] at hj
    have hne : needle = [] := List.prefix_nil.mp hj
    refine ⟨0, ?_, Nat.zero_le j⟩
    simp [firstOccIdx, hne, List.isPrefixOf]
  | cons c t ih =>
    intro j hj
    by_cases hpre : needle.isPrefixOf (c :: t)
    · exact ⟨0, by simp [firstOccIdx, hpre], Nat.zero_le j⟩
    · cases j with
      | zero =>
        rw [List.drop_zero] at hj
        exact absurd ((prefixOf_iff _ _).mpr hj) hpre
      | succ j =>
        rcases ih j (by simpa using hj) with ⟨pos, hpos, hle⟩
        refine ⟨pos + 1, ?_, by omega⟩
        simp [firstOccIdx, hpre, hpos]

/-- The empty needle is found at position 0 of every haystack, as in Rust
where `find("")` is `Some(0)`. -/
theorem firstOccIdx_nil_needle : ∀ hay : List Char, firstOccIdx [] hay = some 0 := by
  intro hay
  cases hay <;> simp [firstOccIdx, List.isPrefixOf]

/-- The scan loop of `find_match_positions` panics on the empty pattern:
the empty needle matches at every position including the very end, after
which the scan slices past the end of the text. -/
theorem findFrom_nil_pattern (tl : List Char) :
    ∀ (n start : Nat), tl.length + 1 - start ≤ n → findFrom [] tl start = none := by
  intro n
  induction n with
  | zero =>
    intro start h
    rw [findFrom.eq_def, dif_neg (by omega)]
  | succ n ih =>
    intro start h
    rw [findFrom.eq_def]
    by_cases hs : start ≤ tl.length
    · rw [dif_pos hs, firstOccIdx_nil_needle]
      have hrec := ih (start + 0 + 1) (by omega)
      simp [hrec]
    · rw [dif_neg hs]

/-- Fuel-indexed characterization of the `find_match_positions` scan loop
for a nonempty pattern: it does not panic, a span is reported exactly when
it is an occurrence at or after the scan start with the pattern length, and
the reported start positions are strictly increasing. -/
theorem findFrom_char (pl tl : List Char) (hpl : pl ≠ []) :
    ∀ (n start : Nat), tl.length + 1 - start ≤ n → start ≤ tl.length →
      ∃ ps, findFrom pl tl start = some ps
        ∧ (∀ se : Nat × Nat, se ∈ ps ↔
            (start ≤ se.1 ∧ pl <+: tl.drop se.1 ∧ se.2 = se.1 + pl.length))
        ∧ List.Pairwise (fun a b : Nat × Nat => a.1 < b.1) ps := by
  intro n
  induction n with
  | zero =>
    intro start h hs
    exact absurd h (by omega)
  | succ n ih =>
    intro start h hs
    rw [findFrom.eq_def, dif_pos hs]
    cases hocc : firstOccIdx pl (tl.drop start) with
    | none =>
      refine ⟨[], rfl, ?_, List.Pairwise.nil⟩
      intro se
      simp only [List.not_mem_nil, false_iff]
      rintro ⟨h1, h2, h3⟩
      have hocc2 : pl <+: (tl.drop start).drop (se.1 - start) := by
        rw [List.drop_drop]
        have hc : start + (se.1 - start) = se.1 := by omega
        rw [hc]
        exact h2
      rcases firstOccIdx_le pl (tl.drop start) (se.1 - start) hocc2
        with ⟨pos, hpos, -⟩
      rw [hocc] at hpos
      cases hpos
    | some pos =>
      rcases firstOccIdx_some_spec pl (tl.drop start) pos hocc with ⟨hpre, hlen⟩
      rw [List.drop_drop] at hpre
      rw [List.length_drop] at hlen
      have hplen : pl.length ≠ 0 := fun hz => hpl (List.length_eq_zero.mp hz)
      have hrec_le : start + pos + 1 ≤ tl.length := by omega
      rcases ih (start + pos + 1) (by omega) hrec_le with ⟨rest, hfind, hiff, hpw⟩
      refine ⟨(start + pos, start + pos + pl.length) :: rest, ?_, ?_, ?_⟩
      · show Option.map
          (fun rest => (start + pos, start + pos + pl.length) :: rest)
          (findFrom pl tl (start + pos + 1)) = _
        rw [hfind]
        rfl
      · intro se
        rw [List.mem_cons]
        constructor
        · rintro (rfl | hmem)
          · exact ⟨by omega, hpre, rfl⟩
          · rcases (hiff se).mp hmem with ⟨h1, h2, h3⟩
            exact ⟨by omega, h2, h3⟩
        · rintro ⟨h1, h2, h3⟩
          have hocc2 : pl <+: (tl.drop start).drop (se.1 - start) := by
            rw [List.drop_drop]
            have hc : start + (se.1 - start) = se.1 := by omega
            rw [hc]
            exact h2
          rcases firstOccIdx_le pl (tl.drop start) (se.1 - start) hocc2
            with ⟨pos2, hpos2, hle2⟩
          rw [hocc] at hpos2
          injection hpos2 with hpp
          by_cases heq : se.1 = start + pos
          · left
            obtain ⟨a, b⟩ := se
            simp only at heq h3
            rw [heq] at h3
            rw [heq, h3]
          · right
            exact (hiff se).mpr ⟨by omega, h2, h3⟩
      · refine List.Pairwise.cons ?_ hpw
        intro b hb
        have hb1 := ((hiff b).mp hb).1
        show start + pos < b.1
        omega

/-- The highlight loop succeeds on valid non-overlapping spans that start at
or after the cursor, and its output followed by the remaining text is the
interleaving of gaps, markers and matched spans. -/
theorem highlightLoop_interleave (text pre suf : List Char) :
    ∀ (positions : List (Nat × Nat)) (acc : List Char) (last_end : Nat),
      List.Chain' (fun a b : Nat × Nat => a.2 ≤ b.1) positions →
      (∀ se ∈ positions, se.1 ≤ se.2 ∧ se.2 ≤ text.length) →
      (∀ se ∈ positions.head?, last_end ≤ se.1) →
      last_end ≤ text.length →
      ∃ res fin, highlightLoop text pre suf positions acc last_end = some (res, fin)
        ∧ fin ≤ text.length
        ∧ res ++ text.drop fin = acc ++ interleave text pre suf positions last_end := by
  intro positions
  induction positions with
  | nil =>
    intro acc last_end _ _ _ hle
    exact ⟨acc, last_end, rfl, hle, rfl⟩
  | cons se rest ih =>
    intro acc last_end hchain hvalid hhead hle
    obtain ⟨s, e⟩ := se
    rcases List.chain'_cons'.mp hchain with ⟨hrel, hchain2⟩
    have hv := hvalid (s, e) (List.mem_cons_self _ _)
    have hls : last_end ≤ s := hhead (s, e) (by simp)
    simp only [highlightLoop]
    rw [if_pos ⟨hls, by omega, hv.1, hv.2⟩]
    rcases ih (acc ++ (text.drop last_end).take (s - last_end) ++ pre ++
        (text.drop s).take (e - s) ++ suf) e hchain2
        (fun x hx => hvalid x (List.mem_cons_of_mem _ hx))
        (fun y hy => hrel y hy) hv.2
      with ⟨res, fin, hloop, hfin, heq⟩
    refine ⟨res, fin, hloop, hfin, ?_⟩
    rw [heq]
    simp [interleave, List.append_assoc]

/-- C7 counterexample: on pattern `aa` and text `aaa` the code returns the
spans `(0, 2)` and `(1, 3)`, and the second span starts before the first
ends — so the returned occurrences are not non-overlapping as claimed; on
those overlapping spans `highlight_matches` panics (slicing
`text[last_end..start]` with `start < last_end`) instead of wrapping each
occurrence. -/
theorem c7_overlap_counterexample :
    find_match_positions ("aa".toList) ("aaa".toList) = some [(0, 2), (1, 3)]
    ∧ 1 < 2
    ∧ highlight_matches ("aa".toList) ("aaa".toList) ("<".toList)
        (">".toList) = none := by
  refine ⟨?_, by omega, ?_⟩ <;>
    simp [highlight_matches, find_match_positions, findFrom, firstOccIdx,
      highlightLoop, List.isPrefixOf, toLowerList, Char.toLower]

/-- C7 (amended): for every nonempty pattern, `find_match_positions` returns
without panicking exactly the in-bounds case-insensitive occurrences of the
pattern — a span is reported if and only if the lowercased pattern occurs at
its start in the lowercased text, its end is start plus the pattern length,
and it lies inside the text — with strictly increasing start positions
(so overlapping occurrences are all reported); on the empty pattern the
scan panics. Whenever the reported spans are non-overlapping,
`highlight_matches` succeeds and wraps each reported occurrence with the
caller-supplied prefix and suffix, leaving non-matched spans unchanged (the
output is the interleaving of unmatched gaps and marked spans, followed by
the remaining text); in particular the two cited examples hold. -/
theorem c7_amended_matches_and_highlight :
    (∀ pattern text : List Char, pattern ≠ [] →
      ∃ positions, find_match_positions pattern text = some positions
        ∧ (∀ se : Nat × Nat, se ∈ positions ↔
            (toLowerList pattern <+: (toLowerList text).drop se.1 ∧
              se.2 = se.1 + pattern.length ∧ se.2 ≤ text.length))
        ∧ List.Pairwise (fun a b : Nat × Nat => a.1 < b.1) positions)
    ∧ (∀ text : List Char, find_match_positions [] text = none)
    ∧ (∀ (pattern text pre suf : List Char) (positions : List (Nat × Nat)),
        pattern ≠ [] →
        find_match_positions pattern text = some positions →
        List.Chain' (fun a b : Nat × Nat => a.2 ≤ b.1) positions →
        highlight_matches pattern text pre suf =
          some (interleave text pre suf positions 0))
    ∧ highlight_matches ("test".toList) ("test case".toList) ("[".toList)
        ("]".toList) = some ("[test] case".toList)
    ∧ highlight_matches ("a".toList) ("banana".toList) ("<".toList)
        (">".toList) = some ("b<a>n<a>n<a>".toList) := by
  have hlowne : ∀ pattern : List Char, pattern ≠ [] → toLowerList pattern ≠ [] := by
    intro p hp hz
    exact hp (List.map_eq_nil_iff.mp hz)
  have main : ∀ pattern text : List Char, pattern ≠ [] →
      ∃ positions, find_match_positions pattern text = some positions
        ∧ (∀ se : Nat × Nat, se ∈ positions ↔
            (toLowerList pattern <+: (toLowerList text).drop se.1 ∧
              se.2 = se.1 + pattern.length ∧ se.2 ≤ text.length))
        ∧ List.Pairwise (fun a b : Nat × Nat => a.1 < b.1) positions := by
    intro pattern text hne
    rcases findFrom_char (toLowerList pattern) (toLowerList text)
        (hlowne pattern hne) ((toLowerList text).length + 1) 0 (by omega)
        (by omega) with ⟨ps, hf, hiff, hpw⟩
    refine ⟨ps, hf, ?_, hpw⟩
    intro se
    rw [hiff se]
    have hplen : (toLowerList pattern).length = pattern.length := by
      simp [toLowerList]
    have htlen : (toLowerList text).length = text.length := by
      simp [toLowerList]
    constructor
    · rintro ⟨-, h2, h3⟩
      have hb := (prefix_drop_bounds _ _ se.1 (hlowne pattern hne) h2).2
      exact ⟨h2, by omega, by omega⟩
    · rintro ⟨h2, h3, -⟩
      exact ⟨Nat.zero_le _, h2, by omega⟩
  refine ⟨main, ?_, ?_, ?_, ?_⟩
  · intro text
    exact findFrom_nil_pattern (toLowerList text)
      ((toLowerList text).length + 1) 0 (by omega)
  · intro pattern text pre suf positions hne hfind hchain
    have hval : ∀ se ∈ positions, se.1 ≤ se.2 ∧ se.2 ≤ text.length := by
      rcases main pattern text hne with ⟨ps, hf, hiff, -⟩
      rw [hfind] at hf
      injection hf with hf
      subst hf
      intro se hse
      rcases (hiff se).mp hse with ⟨-, h3, h4⟩
      exact ⟨by omega, h4⟩
    simp only [highlight_matches, hfind]
    cases positions with
    | nil => simp [interleave]
    | cons se0 rest =>
      rw [if_neg (by simp)]
      rcases highlightLoop_interleave text pre suf (se0 :: rest) [] 0 hchain
          hval (fun x _ => Nat.zero_le _) (Nat.zero_le _)
        with ⟨res, fin, hloop, hfin, heq⟩
      rw [hloop]
      show (if fin ≤ text.length then some (res ++ text.drop fin) else none) = _
      rw [if_pos hfin, heq, List.nil_append]
  · simp [highlight_matches, find_match_positions, findFrom, firstOccIdx,
      highlightLoop, List.isPrefixOf, toLowerList, Char.toLower]
  · simp [highlight_matches, find_match_positions, findFrom, firstOccIdx,
      highlightLoop, List.isPrefixOf, toLowerList, Char.toLower]

set_option maxRecDepth 40000 in
/-- C1 counterexample: for pattern `ab` and a 101-character text whose two
matches sit at positions 98 and 100, the fuzzy path returns the raw
accumulated sum 3 — not a value floored at 100 as the claim states. -/
theorem c1_floor_counterexample :
    incremental_score ("ab".toList) (List.replicate 98 'x' ++ "axb".toList) = 3
    ∧ 3 < 100 := by
  refine ⟨?_, by omega⟩
  decide

/-- The greedy in-order match fails whenever the first pattern character
does not occur in the text, matching the early exit of the code. -/
theorem greedyPositions_none_of_head_not_mem (p0 : Char) (ps : List Char) :
    ∀ (tcs : List Char) (i : Nat), p0 ∉ tcs →
      greedyPositions (p0 :: ps) tcs i = none := by
  intro tcs
  induction tcs with
  | nil => intro i _; rfl
  | cons c ts ih =>
    intro i hmem
    have hc : ¬ c = p0 := fun h => hmem (h ▸ List.mem_cons_self c ts)
    simp only [greedyPositions, if_neg hc]
    exact ih (i + 1) (fun h => hmem (List.mem_cons_of_mem c h))

/-- The fuzzy scan loop of `incremental_score` computes the wrapping sum of
per-position bonuses over the greedy match positions, and 0 when the greedy
match fails; the early return on the last pattern character makes the
post-loop floor unreachable. -/
theorem fuzzyLoop_eq_greedy :
    ∀ (tcs prest : List Char) (i score : Nat), prest ≠ [] → score < M32 →
      fuzzyLoop prest tcs i score =
        (match greedyPositions prest tcs i with
         | none => 0
         | some is => is.foldl (fun s j => (s + bonusAt j) % M32) score) := by
  intro tcs
  induction tcs with
  | nil =>
    intro prest i score hne _
    cases prest with
    | nil => exact absurd rfl hne
    | cons p ps => rfl
  | cons c ts ih =>
    intro prest i score hne hlt
    cases prest with
    | nil => exact absurd rfl hne
    | cons p ps =>
      by_cases hcp : c = p
      · cases ps with
        | nil =>
          simp [fuzzyLoop, greedyPositions, if_pos hcp]
        | cons q qs =>
          have hrec := ih (q :: qs) (i + 1) ((score + bonusAt i) % M32)
            (by simp) (Nat.mod_lt _ (by norm_num [M32]))
          simp only [fuzzyLoop, greedyPositions, if_pos hcp]
          cases hg : greedyPositions (q :: qs) ts (i + 1) with
          | none => simp [hrec, hg]
          | some is => simp [hrec, hg]
      · simp only [fuzzyLoop, greedyPositions, if_neg hcp]
        exact ih (p :: ps) (i + 1) score hne hlt

/-- The embedded `str::contains` holds exactly on contiguous sublists. -/
theorem containsSub_iff (needle hay : List Char) :
    containsSub needle hay = true ↔ needle <:+: hay := by
  rw [containsSub, Option.isSome_iff_exists]
  constructor
  · rintro ⟨pos, hpos⟩
    have := (firstOccIdx_isSome_iff needle hay).mp (by simp [hpos])
    exact this
  · intro h
    have := (firstOccIdx_isSome_iff needle hay).mpr h
    exact Option.isSome_iff_exists.mp this

/-- C1 (amended): `incremental_score` returns 1000 on an empty pattern or a
case-insensitive exact match, 900 on a case-insensitive prefix match, 700
on a case-insensitive substring match; otherwise, if every pattern
character is found in order over the lowercased characters, it returns the
accumulated wrapping `u32` sum of the per-character bonuses
`max(100 - position_index, 1)` (the subtraction wrapping modulo `2 ^ 32`
for indices above 100) with no floor at 100 applied, and it returns 0 when
not every pattern character is matched in order. -/
theorem c1_amended_tiers (pattern text : List Char) :
    incremental_score pattern text =
      if pattern = [] then 1000
      else if toLowerList text = toLowerList pattern then 1000
      else if toLowerList pattern <+: toLowerList text then 900
      else if toLowerList pattern <:+: toLowerList text then 700
      else
        match greedyPositions (toLowerList pattern) (toLowerList text) 0 with
        | none => 0
        | some is => bonusSum is := by
  by_cases hp : pattern = []
  · simp [incremental_score, hp]
  · simp only [incremental_score, if_neg hp]
    by_cases h1 : toLowerList text = toLowerList pattern
    · simp [h1]
    · rw [if_neg h1, if_neg h1]
      by_cases h2 : toLowerList pattern <+: toLowerList text
      · rw [if_pos (prefixOf_iff _ _ |>.mpr h2), if_pos h2]
      · rw [if_neg (fun hb => h2 ((prefixOf_iff _ _).mp hb)), if_neg h2]
        by_cases h3 : toLowerList pattern <:+: toLowerList text
        · rw [if_pos ((containsSub_iff _ _).mpr h3), if_pos h3]
        · rw [if_neg (fun hb => h3 ((containsSub_iff _ _).mp hb)), if_neg h3]
          cases hpl : toLowerList pattern with
          | nil =>
            exact absurd (by simpa [toLowerList] using hpl) hp
          | cons p0 prest =>
            dsimp only
            by_cases hcont : (toLowerList text).contains p0 = true
            · rw [if_pos hcont]
              rw [fuzzyLoop_eq_greedy (toLowerList text) (p0 :: prest) 0 0
                (by simp) (by norm_num [M32])]
              rfl
            · rw [if_neg hcont]
              have hnm : p0 ∉ toLowerList text := by
                intro hmem
                exact absurd (by simpa [List.elem_iff] using hmem) hcont
              rw [greedyPositions_none_of_head_not_mem p0 prest
                (toLowerList text) 0 hnm]

/-- The final scaling clamp of the relevance scorer never exceeds 1000. -/
theorem scaleTo1000_le_1000 (q : ℚ) : scaleTo1000 q ≤ 1000 := by
  rw [scaleTo1000]
  have h1 : Int.floor (min (q * 1000) 1000) ≤ (1000 : ℤ) := by
    calc Int.floor (min (q * 1000) 1000) ≤ Int.floor ((1000 : ℚ)) :=
          Int.floor_le_floor (min_le_right _ _)
      _ = 1000 := by norm_num
  omega

/-- Splitting an accumulating conditional into base plus contribution. -/
theorem rat_if_add_right (c : Prop) [Decidable c] (x y : ℚ) :
    (if c then x + y else x) = x + (if c then y else 0) := by
  split_ifs <;> ring

/-- Splitting a nested accumulating conditional into base plus
contribution. -/
theorem rat_if_nested_add (c d : Prop) [Decidable c] [Decidable d] (x u v : ℚ) :
    (if c then if d then x + u else x + v else x) =
      x + (if c then if d then u else v else 0) := by
  split_ifs <;> ring

/-- C3: for every pattern, text, flag pair and configuration, the `total`
field of `calculate_relevance_score_breakdown` equals the value returned by
`calculate_relevance_score_with_config` on the same inputs — the diagnostic
breakdown path and the combined scoring path never drift. -/
theorem c3_breakdown_total_eq_score (pattern text : List Char)
    (is_exact is_case_sensitive : Bool) (config : HeuristicConfig) :
    (calculate_relevance_score_breakdown pattern text is_exact
      is_case_sensitive config).total =
    calculate_relevance_score_with_config pattern text is_exact
      is_case_sensitive config := by
  simp only [calculate_relevance_score_breakdown,
    calculate_relevance_score_with_config]
  congr 1
  rw [rat_if_nested_add, rat_if_add_right, rat_if_add_right, rat_if_add_right,
    rat_if_add_right]
  ring

/-- C8: with the default configuration `calculate_relevance_score` returns
at most 1000 (and at least 0, its codomain being `ℕ`), and repeated calls
with identical inputs return the same value. -/
theorem c8_score_range_and_deterministic (pattern text : List Char)
    (is_exact is_case_sensitive : Bool) :
    calculate_relevance_score pattern text is_exact is_case_sensitive ≤ 1000
    ∧ calculate_relevance_score pattern text is_exact is_case_sensitive =
        calculate_relevance_score pattern text is_exact is_case_sensitive := by
  refine ⟨?_, rfl⟩
  simp only [calculate_relevance_score, calculate_relevance_score_with_config]
  exact scaleTo1000_le_1000 _

/-- The reference edit distance against the empty string is the length. -/
theorem lev_nil_right (a : List Nat) : lev a [] = a.length := by
  cases a with
  | nil => rw [lev.eq_1]
  | cons x xs => rw [lev.eq_2]; rfl

/-- The reference edit distance of a string to itself is zero. -/
theorem lev_self (a : List Nat) : lev a a = 0 := by
  induction a with
  | nil => rw [lev.eq_1]; rfl
  | cons x xs ih =>
    rw [lev.eq_3, ih]
    simp [levCost]

/-- The substitution cost is symmetric. -/
theorem levCost_comm (x y : Nat) : levCost x y = levCost y x := by
  simp [levCost, eq_comm]

/-- Symmetry of the reference edit distance, by induction on the total
length. -/
theorem lev_comm_aux : ∀ (n : Nat) (a b : List Nat), a.length + b.length ≤ n →
    lev a b = lev b a := by
  intro n
  induction n with
  | zero =>
    intro a b h
    have ha : a = [] := List.length_eq_zero.mp (by omega)
    have hb : b = [] := List.length_eq_zero.mp (by omega)
    rw [ha, hb]
  | succ n ih =>
    intro a b h
    cases a with
    | nil =>
      cases b with
      | nil => rfl
      | cons y ys => rw [lev.eq_1, lev.eq_2]; rfl
    | cons x xs =>
      cases b with
      | nil => rw [lev.eq_1, lev.eq_2]; rfl
      | cons y ys =>
        rw [lev.eq_3, lev.eq_3]
        rw [ih xs (y :: ys) (by simp at h ⊢; omega)]
        rw [ih (x :: xs) ys (by simp at h ⊢; omega)]
        rw [ih xs ys (by simp at h ⊢; omega)]
        rw [Nat.min_comm (lev (y :: ys) xs + 1) (lev ys (x :: xs) + 1)]
        rw [levCost_comm x y]

/-- The reference edit distance is symmetric. -/
theorem lev_comm (a b : List Nat) : lev a b = lev b a :=
  lev_comm_aux (a.length + b.length) a b le_rfl

/-- The inner DP loop turns the row of distances for the processed text
into the row for one more text byte. -/
theorem nextRowAux_spec (y : Nat) : ∀ (a racc rt : List Nat),
    nextRowAux y a (lev racc rt) (rowFor rt a racc) (lev racc (y :: rt)) =
      rowFor (y :: rt) a racc := by
  intro a
  induction a with
  | nil => intro racc rt; rw [rowFor.eq_1, rowFor.eq_1, nextRowAux.eq_1]
  | cons x xs ih =>
    intro racc rt
    rw [rowFor.eq_2, rowFor.eq_2, nextRowAux.eq_3]
    have hv : min (min (lev (x :: racc) rt + 1) (lev racc (y :: rt) + 1))
        (lev racc rt + levCost x y) = lev (x :: racc) (y :: rt) := by
      rw [lev.eq_3, Nat.min_comm (lev racc (y :: rt) + 1) (lev (x :: racc) rt + 1)]
    simp only [hv]
    rw [ih (x :: racc) rt]

/-- One outer DP iteration maps the full row for processed text `rt` to the
full row for `y :: rt`. -/
theorem nextRow_fullRow (y : Nat) (s1 rt : List Nat) :
    nextRow y s1 (rt.length + 1) (fullRow rt s1) = fullRow (y :: rt) s1 := by
  rw [fullRow, fullRow, nextRow.eq_2]
  have hj : rt.length + 1 = lev [] (y :: rt) := by rw [lev.eq_1]; rfl
  rw [hj]
  rw [nextRowAux_spec y s1 [] rt]

/-- The outer DP loop computes the full row for the whole processed
text. -/
theorem dpLoop_fullRow (s1 : List Nat) : ∀ (ys rt : List Nat),
    dpLoop s1 ys (rt.length + 1) (fullRow rt s1) =
      fullRow (ys.reverse ++ rt) s1 := by
  intro ys
  induction ys with
  | nil => intro rt; rw [dpLoop.eq_1]; simp
  | cons y ys ih =>
    intro rt
    rw [dpLoop.eq_2, nextRow_fullRow y s1 rt]
    rw [show rt.length + 1 + 1 = (y :: rt).length + 1 from rfl]
    rw [ih (y :: rt)]
    simp [List.append_assoc]

/-- The ideal row for no processed text is the initial `0..=len` range
(tail part). -/
theorem rowFor_nil : ∀ (a racc : List Nat),
    rowFor [] a racc = List.range' (racc.length + 1) a.length := by
  intro a
  induction a with
  | nil => intro racc; rw [rowFor.eq_1]; rfl
  | cons x xs ih =>
    intro racc
    rw [rowFor.eq_2, lev.eq_2, ih (x :: racc)]
    rfl

/-- The initial DP row `List.range (len + 1)` is the ideal row for the
empty processed text. -/
theorem fullRow_nil (s1 : List Nat) : fullRow [] s1 = List.range (s1.length + 1) := by
  rw [fullRow, rowFor_nil, lev.eq_1, List.range_eq_range']
  rfl

/-- The last entry of the ideal row tail is the distance for the whole
processed pattern. -/
theorem rowFor_getD : ∀ (a : List Nat), a ≠ [] → ∀ (racc rt : List Nat),
    (rowFor rt a racc).getD (a.length - 1) 0 = lev (a.reverse ++ racc) rt := by
  intro a
  induction a with
  | nil => intro h; exact absurd rfl h
  | cons x xs ih =>
    intro _ racc rt
    cases xs with
    | nil =>
      rw [rowFor.eq_2, rowFor.eq_1]
      simp
    | cons q qs =>
      rw [rowFor.eq_2]
      have hidx : (x :: q :: qs).length - 1 = ((q :: qs).length - 1) + 1 := by
        simp
      rw [hidx, List.getD_cons_succ]
      rw [ih (by simp) (x :: racc) rt]
      simp [List.append_assoc]

/-- Reading the full row at index `len(s1)` gives the distance between the
reversed pattern and the reversed processed text. -/
theorem fullRow_getD (rt s1 : List Nat) (h : s1 ≠ []) :
    (fullRow rt s1).getD s1.length 0 = lev s1.reverse rt := by
  rw [fullRow]
  cases s1 with
  | nil => exact absurd rfl h
  | cons x xs =>
    rw [show (x :: xs).length = xs.length + 1 from rfl, List.getD_cons_succ]
    have := rowFor_getD (x :: xs) (by simp) [] rt
    simpa using this

/-- The two-row DP of `levenshtein_distance` computes the reference edit
distance of the reversed inputs. -/
theorem dp_result (a b : List Nat) (ha : a ≠ []) :
    (dpLoop a b 1 (List.range (a.length + 1))).getD a.length 0 =
      lev a.reverse b.reverse := by
  rw [← fullRow_nil a]
  rw [show (1 : Nat) = ([] : List Nat).length + 1 from rfl]
  rw [dpLoop_fullRow a b []]
  rw [List.append_nil]
  exact fullRow_getD b.reverse a ha

/-- C9: `levenshtein_distance` is symmetric, returns 0 on equal strings,
and returns the length of `s` on the empty first string. -/
theorem c9_levenshtein_properties (a b s : List Nat) :
    levenshtein_distance a b = levenshtein_distance b a
    ∧ levenshtein_distance a a = 0
    ∧ levenshtein_distance [] s = s.length := by
  have hself : ∀ x : List Nat, levenshtein_distance x x = 0 := by
    intro x
    by_cases hx : x.length = 0
    · simp [levenshtein_distance, hx]
    · simp only [levenshtein_distance, if_neg hx, lt_irrefl, if_false]
      rw [dp_result x x (by intro hn; exact hx (by simp [hn]))]
      exact lev_self x.reverse
  refine ⟨?_, hself a, by simp [levenshtein_distance]⟩
  by_cases ha : a.length = 0
  · by_cases hb : b.length = 0
    · simp [levenshtein_distance, ha, hb]
    · simp [levenshtein_distance, ha, hb]
  · by_cases hb : b.length = 0
    · simp [levenshtein_distance, ha, hb]
    · have hane : a ≠ [] := fun hn => ha (by simp [hn])
      have hbne : b ≠ [] := fun hn => hb (by simp [hn])
      rcases lt_trichotomy a.length b.length with hlt | heq | hgt
      · simp only [levenshtein_distance, if_neg ha, if_neg hb,
          if_neg (by omega : ¬ b.length < a.length), if_pos hlt]
      · simp only [levenshtein_distance, if_neg ha, if_neg hb,
          if_neg (by omega : ¬ b.length < a.length),
          if_neg (by omega : ¬ a.length < b.length)]
        rw [dp_result a b hane, dp_result b a hbne]
        exact lev_comm a.reverse b.reverse
      · simp only [levenshtein_distance, if_neg ha, if_neg hb,
          if_pos hgt, if_neg (by omega : ¬ a.length < b.length)]
